import Mathlib

/-!
Verification of the Boltzmann wealth tutorial code
(docs/tutorials/8_comparing_scenarios.ipynb).

The notebook defines three pieces of original logic:

* compute_gini: reads the wealth of every agent of the model, sorts the
  values ascending, and returns 1 + 1/n - 2*B with
  B = (sum over i of x[i]*(n-i)) / (n * sum(x)).
  Python ints are unbounded, so wealth values are modelled as integers;
  the float result is modelled as a rational.  Python raises
  ZeroDivisionError when the divisor n * sum(x) is zero, so the embedded
  function returns an Option, with none standing for that raised error.

* MoneyAgent with move and give_money, acting on the model's agent
  population.  The random choices (the chosen neighbouring cell, the
  chosen cellmate) are nondeterministic inputs and appear as explicit
  parameters.  The grid itself belongs to the external mesa framework;
  cells are modelled as opaque identifiers.

* MoneyModel.step: shuffled moves followed by give_money for every agent;
  every such step is a sequence of the two primitive operations, so the
  step relation is modelled as a list of primitive operations applied in
  order.
-/

/-- Weighted sum over the enumerated list, mirroring the Python generator
sum(xi * (n - i) for i, xi in enumerate(x)).  The pair p produced by
enumerate carries the index first and the value second. -/
def giniNumerator (n : ℕ) (x : List ℤ) : ℤ :=
  (x.enum.map (fun p => p.2 * ((n : ℤ) - (p.1 : ℤ)))).sum

/-- The quantity B of the source line
B = sum(xi * (n - i) for i, xi in enumerate(x)) / (n * sum(x)),
taken at an already sorted list x. -/
def giniB (n : ℕ) (x : List ℤ) : ℚ :=
  (giniNumerator n x : ℚ) / ((n : ℚ) * ((x.sum : ℤ) : ℚ))

/-- Body of compute_gini with the agent count n passed explicitly, as the
source reads it from model.num_agents: sort the wealths ascending, form B
and return 1 + (1 / n) - 2 * B.  Python evaluates B first and raises
ZeroDivisionError exactly when n * sum(x) == 0, which the embedding
renders as none. -/
def computeGiniN (n : ℕ) (wealths : List ℤ) : Option ℚ :=
  let x := List.insertionSort (fun a b => a ≤ b) wealths
  if (n : ℤ) * x.sum = 0 then none
  else some (1 + 1 / (n : ℚ) - 2 * giniB n x)

/-- compute_gini on a wealth snapshot.  In the tutorial model the agent
count model.num_agents always equals the number of collected wealth
values, so n is the length of the snapshot. -/
def computeGini (wealths : List ℤ) : Option ℚ :=
  computeGiniN wealths.length wealths

/-- Score formula written from the specification text: sort the wealth
values ascending into x[0..n-1], compute
B = (sum over i of x[i]*(n-i)) / (n*S) with S the sum of the input, and
return 1 + 1/n - 2*B.  Used only to compare against computeGini. -/
def giniSpecScore (wealths : List ℤ) : ℚ :=
  let x := List.insertionSort (fun a b => a ≤ b) wealths
  let n := wealths.length
  let S := wealths.sum
  1 + 1 / (n : ℚ) -
    2 * ((∑ i in Finset.range n, (x.getD i 0 : ℚ) * ((n : ℚ) - (i : ℚ))) /
      ((n : ℚ) * (S : ℚ)))

/-- Structurally recursive form of the weighted sum: the head of a list of
length m+1 carries weight m+1, and the tail is again a weighted sum over
its own length. -/
def weightedSum : List ℤ → ℤ
  | [] => 0
  | a :: l => a * ((l.length : ℤ) + 1) + weightedSum l

/-- Agent state of the tutorial: a cell position, an integer wealth and
the steps_not_given counter.  Cells are opaque identifiers supplied by the
external grid. -/
structure MoneyAgent where
  cell : ℕ
  wealth : ℤ
  steps_not_given : ℕ
deriving DecidableEq

instance : Inhabited MoneyAgent := ⟨⟨0, 0, 0⟩⟩

/-- Indices of the agents sharing the cell of agent i, excluding i itself:
the cellmates list of give_money. -/
def cellmates (agents : List MoneyAgent) (i : ℕ) : List ℕ :=
  (List.range agents.length).filter
    (fun j => decide (j ≠ i) &&
      ((agents.getD j default).cell == (agents.getD i default).cell))

/-- Embedding of MoneyAgent.move: the agent adopts a cell chosen from its
neighbourhood.  The random choice is the explicit parameter newCell; the
neighbourhood structure belongs to the external grid.  An out-of-range
index leaves the population unchanged (unreachable in the model). -/
def MoneyAgent.move (agents : List MoneyAgent) (i newCell : ℕ) :
    List MoneyAgent :=
  match agents[i]? with
  | none => agents
  | some self => agents.set i { self with cell := newCell }

/-- Embedding of MoneyAgent.give_money: when a cellmate exists and the
giver's wealth is positive, a cellmate chosen by the random draw (the
parameter choice selects among the cellmates) gains one unit, the giver
loses one unit and resets steps_not_given; otherwise steps_not_given is
incremented.  An out-of-range giver index leaves the population unchanged
(unreachable in the model). -/
def MoneyAgent.give_money (agents : List MoneyAgent) (i choice : ℕ) :
    List MoneyAgent :=
  match agents[i]? with
  | none => agents
  | some self =>
    let mates := cellmates agents i
    if 0 < mates.length ∧ 0 < self.wealth then
      let j := mates.getD (choice % mates.length) 0
      let other := agents.getD j default
      (agents.set j { other with wealth := other.wealth + 1 }).set i
        { self with wealth := self.wealth - 1, steps_not_given := 0 }
    else
      agents.set i { self with steps_not_given := self.steps_not_given + 1 }

/-- Primitive operations a model step is composed of: one agent moving to
a chosen cell, or one agent running give_money with a chosen recipient. -/
inductive AgentOp where
  | moveOp (i newCell : ℕ)
  | giveOp (i choice : ℕ)
deriving DecidableEq

/-- Apply one primitive operation to the population. -/
def applyOp (agents : List MoneyAgent) : AgentOp → List MoneyAgent
  | AgentOp.moveOp i c => MoneyAgent.move agents i c
  | AgentOp.giveOp i ch => MoneyAgent.give_money agents i ch

/-- Apply a sequence of primitive operations in order.  Every sequence of
model steps (shuffled moves followed by give_money for each agent) is such
a sequence. -/
def applyOps (agents : List MoneyAgent) (ops : List AgentOp) :
    List MoneyAgent :=
  ops.foldl applyOp agents

/-- Initialization of MoneyModel: one agent per chosen cell, each with
wealth 1 and steps_not_given 0. -/
def createAgents (cells : List ℕ) : List MoneyAgent :=
  cells.map (fun c => { cell := c, wealth := 1, steps_not_given := 0 })

/-- Total wealth held by the population. -/
def totalWealth (agents : List MoneyAgent) : ℤ :=
  (agents.map MoneyAgent.wealth).sum

/-- Model state visible to compute_gini: the agent count recorded at
construction and the agent population. -/
structure MoneyModel where
  num_agents : ℕ
  agents : List MoneyAgent

/-- State-passing embedding of compute_gini called on the model: the body
only reads agent wealths (the list comprehension and sorted allocate
fresh lists), so the model state component of the result is the input
state itself. -/
def compute_gini (model : MoneyModel) : Option ℚ × MoneyModel :=
  (computeGiniN model.num_agents (model.agents.map MoneyAgent.wealth),
    model)

/-!
Helper lemmas about the weighted sum, sorting and list arithmetic.
-/

/-- Unfolding of the enumerated weighted sum: when the offset plus the
remaining length is n, the enumerated sum coincides with the structural
weighted sum. -/
theorem enumFrom_weightedSum :
    ∀ (x : List ℤ) (n k : ℕ), k + x.length = n →
      ((List.enumFrom k x).map (fun p => p.2 * ((n : ℤ) - (p.1 : ℤ)))).sum =
        weightedSum x := by
  intro x
  induction x with
  | nil => intro n k h; simp [weightedSum]
  | cons a t ih =>
    intro n k h
    rw [List.enumFrom_cons]
    simp only [List.map_cons, List.sum_cons, weightedSum]
    rw [ih n (k + 1) (by simp at h ⊢; omega)]
    have hk : (n : ℤ) - (k : ℤ) = (t.length : ℤ) + 1 := by
      have h' : k + (t.length + 1) = n := by simpa using h
      omega
    rw [hk]

/-- The numerator of B taken with the list's own length is the structural
weighted sum. -/
theorem giniNumerator_eq_weightedSum (x : List ℤ) :
    giniNumerator x.length x = weightedSum x := by
  have e : giniNumerator x.length x =
      ((List.enumFrom 0 x).map
        (fun p => p.2 * ((x.length : ℤ) - (p.1 : ℤ)))).sum := rfl
  rw [e, enumFrom_weightedSum x x.length 0 (by omega)]

/-- A lower bound for every element of a list bounds the sum from below by
the bound times the length. -/
theorem head_mul_length_le_sum {a : ℤ} {l : List ℤ} (h : ∀ b ∈ l, a ≤ b) :
    a * (l.length : ℤ) ≤ l.sum := by
  induction l with
  | nil => simp
  | cons b t ih =>
    have hb : a ≤ b := h b (List.mem_cons_self b t)
    have ht : a * (t.length : ℤ) ≤ t.sum :=
      ih (fun c hc => h c (List.mem_cons_of_mem b hc))
    simp only [List.length_cons, List.sum_cons, Nat.cast_add, Nat.cast_one,
      mul_add, mul_one]
    linarith

/-- Chebyshev-type upper bound: on an ascending list the weighted sum is
at most half of (length + 1) times the sum. -/
theorem two_mul_weightedSum_le {x : List ℤ}
    (hx : List.Sorted (fun a b => a ≤ b) x) :
    2 * weightedSum x ≤ ((x.length : ℤ) + 1) * x.sum := by
  induction x with
  | nil => simp [weightedSum]
  | cons a t ih =>
    rw [List.sorted_cons] at hx
    have h1 : a * (t.length : ℤ) ≤ t.sum := head_mul_length_le_sum hx.1
    have h2 : 2 * weightedSum t ≤ ((t.length : ℤ) + 1) * t.sum := ih hx.2
    simp only [weightedSum, List.length_cons, List.sum_cons]
    push_cast
    nlinarith [h1, h2]

/-- On a list of non-negative values the weighted sum dominates the plain
sum, every weight being at least one. -/
theorem sum_le_weightedSum {x : List ℤ} (h : ∀ a ∈ x, 0 ≤ a) :
    x.sum ≤ weightedSum x := by
  induction x with
  | nil => simp [weightedSum]
  | cons a t ih =>
    have ha : 0 ≤ a := h a (List.mem_cons_self a t)
    have ht : t.sum ≤ weightedSum t :=
      ih (fun c hc => h c (List.mem_cons_of_mem a hc))
    simp only [weightedSum, List.sum_cons]
    nlinarith [mul_nonneg ha (Int.natCast_nonneg t.length), ht]

/-- Weighted sum of a constant list. -/
theorem weightedSum_replicate (n : ℕ) (w : ℤ) :
    2 * weightedSum (List.replicate n w) = w * (n : ℤ) * ((n : ℤ) + 1) := by
  induction n with
  | zero => simp [weightedSum]
  | succ m ih =>
    rw [List.replicate_succ]
    simp only [weightedSum, List.length_replicate, List.sum_replicate]
    push_cast
    linear_combination ih

/-- Weighted sum of the fully concentrated distribution: the single holder
stands last and carries weight one. -/
theorem weightedSum_concentrated (m : ℕ) (S : ℤ) :
    weightedSum (List.replicate m 0 ++ [S]) = S := by
  induction m with
  | zero => simp [weightedSum]
  | succ k ih =>
    rw [List.replicate_succ, List.cons_append]
    simp only [weightedSum]
    simpa using ih

/-- Sorting two permuted lists of integers produces the same list. -/
theorem insertionSort_eq_of_perm {l₁ l₂ : List ℤ} (h : l₁.Perm l₂) :
    List.insertionSort (fun a b => a ≤ b) l₁ =
      List.insertionSort (fun a b => a ≤ b) l₂ :=
  @List.eq_of_perm_of_sorted ℤ (fun a b => a ≤ b) inferInstance _ _
    (((List.perm_insertionSort _ l₁).trans h).trans
      (List.perm_insertionSort _ l₂).symm)
    (List.sorted_insertionSort _ l₁) (List.sorted_insertionSort _ l₂)

/-- Multiplying every element by a constant scales the sum. -/
theorem sum_map_mul_int (c : ℤ) (l : List ℤ) :
    (l.map (fun a => c * a)).sum = c * l.sum := by
  induction l with
  | nil => simp
  | cons a t ih => simp [ih, mul_add]

/-- Multiplying every element by a constant scales the weighted sum. -/
theorem weightedSum_map_mul (c : ℤ) (x : List ℤ) :
    weightedSum (x.map (fun a => c * a)) = c * weightedSum x := by
  induction x with
  | nil => simp [weightedSum]
  | cons a t ih =>
    simp only [List.map_cons, weightedSum, List.length_map, ih]
    ring

/-- Sorting commutes with scaling by a non-negative constant. -/
theorem insertionSort_map_mul {c : ℤ} (hc : 0 ≤ c) (l : List ℤ) :
    List.insertionSort (fun a b => a ≤ b) (l.map (fun a => c * a)) =
      (List.insertionSort (fun a b => a ≤ b) l).map (fun a => c * a) :=
  @List.eq_of_perm_of_sorted ℤ (fun a b => a ≤ b) inferInstance _ _
    ((List.perm_insertionSort _ _).trans
      (((List.perm_insertionSort (fun a b => a ≤ b) l).map _).symm))
    (List.sorted_insertionSort _ _)
    (List.Pairwise.map _
      (fun _ _ hab => mul_le_mul_of_nonneg_left hab hc)
      (List.sorted_insertionSort (fun a b => a ≤ b) l))

/-- Evaluation of compute_gini on a snapshot with positive total wealth:
the guard divisor is non-zero and the returned score is the source
formula with the numerator in structural form. -/
theorem computeGini_eq_some {l : List ℤ} (hne : l ≠ []) (hpos : 0 < l.sum) :
    computeGini l = some (1 + 1 / (l.length : ℚ) -
      2 * (((weightedSum (List.insertionSort (fun a b => a ≤ b) l) : ℤ) : ℚ) /
        ((l.length : ℚ) * ((l.sum : ℤ) : ℚ)))) := by
  have hperm := List.perm_insertionSort (fun a b => a ≤ b) l
  have hsum : (List.insertionSort (fun a b => a ≤ b) l).sum = l.sum :=
    hperm.sum_eq
  have hlen : (List.insertionSort (fun a b => a ≤ b) l).length = l.length :=
    hperm.length_eq
  have hn : l.length ≠ 0 := fun h => hne (List.length_eq_zero.mp h)
  have hcond :
      ¬ ((l.length : ℤ) *
        (List.insertionSort (fun a b => a ≤ b) l).sum = 0) := by
    rw [hsum]
    have h1 : (0 : ℤ) < (l.length : ℤ) := by
      exact_mod_cast Nat.pos_of_ne_zero hn
    exact ne_of_gt (mul_pos h1 hpos)
  have hgn : giniNumerator l.length
      (List.insertionSort (fun a b => a ≤ b) l) =
      weightedSum (List.insertionSort (fun a b => a ≤ b) l) := by
    rw [← hlen]
    exact giniNumerator_eq_weightedSum _
  simp only [computeGini, computeGiniN]
  rw [if_neg hcond]
  refine congrArg some ?_
  rw [giniB, hgn, hsum]

/-- Index form of the weighted sum, over the range of positions of the
list. -/
theorem specSum_eq_weightedSum (x : List ℤ) :
    (∑ i in Finset.range x.length, x.getD i 0 * ((x.length : ℤ) - (i : ℤ))) =
      weightedSum x := by
  induction x with
  | nil => simp [weightedSum]
  | cons a t ih =>
    rw [List.length_cons, Finset.sum_range_succ']
    simp only [List.getD_cons_succ, List.getD_cons_zero, Nat.cast_zero,
      sub_zero]
    have hterm : ∀ i ∈ Finset.range t.length,
        t.getD i 0 * (((t.length + 1 : ℕ) : ℤ) - ((i + 1 : ℕ) : ℤ)) =
          t.getD i 0 * ((t.length : ℤ) - (i : ℤ)) := by
      intro i _
      push_cast
      ring
    rw [Finset.sum_congr rfl hterm, ih]
    simp only [weightedSum]
    push_cast
    ring

/-- Rational cast of the index form of the weighted sum. -/
theorem specSum_cast_eq (x : List ℤ) :
    (∑ i in Finset.range x.length,
        (x.getD i 0 : ℚ) * ((x.length : ℚ) - (i : ℚ))) =
      ((weightedSum x : ℤ) : ℚ) := by
  have h := congrArg (fun z : ℤ => (z : ℚ)) (specSum_eq_weightedSum x)
  push_cast at h
  exact_mod_cast h

/-- Sum of a constant integer list. -/
theorem sum_replicate_int (n : ℕ) (w : ℤ) :
    (List.replicate n w).sum = (n : ℤ) * w := by
  rw [List.sum_replicate, nsmul_eq_mul]

/-- A constant list is sorted. -/
theorem sorted_replicate (n : ℕ) (w : ℤ) :
    List.Sorted (fun a b => a ≤ b) (List.replicate n w) :=
  List.pairwise_replicate.mpr (Or.inr le_rfl)

/-- Perfect equality yields score zero. -/
theorem computeGini_replicate {n : ℕ} {w : ℤ} (hn : 1 ≤ n) (hw : 0 < w) :
    computeGini (List.replicate n w) = some 0 := by
  have hne : List.replicate n w ≠ [] := by
    intro h
    have h' := congrArg List.length h
    simp at h'
    omega
  have hsum : (List.replicate n w).sum = (n : ℤ) * w := sum_replicate_int n w
  have hpos : 0 < (List.replicate n w).sum := by
    rw [hsum]
    have h1 : (0 : ℤ) < (n : ℤ) := by exact_mod_cast hn
    exact mul_pos h1 hw
  rw [computeGini_eq_some hne hpos]
  rw [(sorted_replicate n w).insertionSort_eq]
  refine congrArg some ?_
  have h2 := congrArg (fun z : ℤ => (z : ℚ)) (weightedSum_replicate n w)
  push_cast at h2
  rw [List.length_replicate, hsum]
  push_cast
  have hnq : ((n : ℕ) : ℚ) ≠ 0 := Nat.cast_ne_zero.mpr (by omega)
  have hwq : (w : ℚ) ≠ 0 := by exact_mod_cast hw.ne'
  field_simp
  linear_combination (- (n : ℚ)) * h2

/-- The concentrated distribution is sorted. -/
theorem sorted_concentrated (m : ℕ) {S : ℤ} (hS : 0 ≤ S) :
    List.Sorted (fun a b => a ≤ b) (List.replicate m 0 ++ [S]) := by
  rw [List.Sorted, List.pairwise_append]
  refine ⟨List.pairwise_replicate.mpr (Or.inr le_rfl), ?_, ?_⟩
  · simp
  · intro a ha b hb
    rw [List.eq_of_mem_replicate ha]
    rw [List.mem_singleton] at hb
    rw [hb]
    exact hS

/-- Full concentration on one holder yields score 1 - 1/n exactly. -/
theorem computeGini_concentrated_eq {n : ℕ} {S : ℤ} (hn : 1 ≤ n)
    (hS : 0 < S) :
    computeGini (List.replicate (n - 1) 0 ++ [S]) =
      some (((n : ℚ) - 1) / (n : ℚ)) := by
  obtain ⟨m, rfl⟩ : ∃ m, n = m + 1 := ⟨n - 1, by omega⟩
  have hm : m + 1 - 1 = m := rfl
  rw [hm]
  have hlen : (List.replicate m 0 ++ [S]).length = m + 1 := by simp
  have hsum : (List.replicate m 0 ++ [S]).sum = S := by
    simp [List.sum_append]
  have hne : List.replicate m 0 ++ [S] ≠ [] := by
    intro h
    have h' := congrArg List.length h
    simp at h'
  have hpos : 0 < (List.replicate m 0 ++ [S]).sum := by rw [hsum]; exact hS
  rw [computeGini_eq_some hne hpos]
  rw [(sorted_concentrated m hS.le).insertionSort_eq]
  rw [weightedSum_concentrated, hlen, hsum]
  refine congrArg some ?_
  have hSq : (S : ℚ) ≠ 0 := by exact_mod_cast hS.ne'
  have hnq : ((m : ℚ) + 1) ≠ 0 := by positivity
  push_cast
  field_simp
  ring

/-- Generic bounds for the score shape 1 + 1/N - 2*(W/(N*S)) under the
two weighted-sum estimates. -/
theorem score_bounds {N Sq W : ℚ} (hN : 0 < N) (hS : 0 < Sq)
    (hub : 2 * W ≤ (N + 1) * Sq) (hlb : Sq ≤ W) :
    0 ≤ 1 + 1 / N - 2 * (W / (N * Sq)) ∧
      1 + 1 / N - 2 * (W / (N * Sq)) ≤ 1 := by
  have hN0 : N ≠ 0 := hN.ne'
  have hS0 : Sq ≠ 0 := hS.ne'
  constructor
  · have e : 1 + 1 / N - 2 * (W / (N * Sq)) =
        ((N + 1) * Sq - 2 * W) / (N * Sq) := by
      field_simp
      ring
    rw [e]
    apply div_nonneg
    · linarith
    · positivity
  · have e2 : 1 + 1 / N - 2 * (W / (N * Sq)) =
        1 - (2 * W - Sq) / (N * Sq) := by
      field_simp
      ring
    rw [e2]
    have h3 : 0 ≤ (2 * W - Sq) / (N * Sq) :=
      div_nonneg (by linarith) (by positivity)
    linarith

/-!
Claim theorems.
-/

/-- Claim C1: on a non-empty sequence of non-negative wealth values with
positive sum, compute_gini sorts the values ascending, forms
B = (sum over i of x[i]*(n-i)) / (n*S) and returns 1 + 1/n - 2*B, exactly
the formula of the specification. -/
theorem computeGini_matches_spec (l : List ℤ) (hne : l ≠ [])
    (hnn : ∀ a ∈ l, 0 ≤ a) (hpos : 0 < l.sum) :
    computeGini l = some (giniSpecScore l) := by
  rw [computeGini_eq_some hne hpos]
  refine congrArg some ?_
  simp only [giniSpecScore]
  have h := specSum_cast_eq (List.insertionSort (fun a b => a ≤ b) l)
  rw [(List.perm_insertionSort (fun a b => a ≤ b) l).length_eq] at h
  rw [h]

/-- Witness for C1 at the concrete snapshot with wealths 1 and 2. -/
theorem computeGini_matches_spec_app :
    computeGini [1, 2] = some (giniSpecScore [1, 2]) :=
  computeGini_matches_spec [1, 2] (by decide) (by decide) (by decide)

/-- Claim C2 counterexample: on the all-zero snapshot the function does
not return the sentinel 0; the divisor is zero and Python raises, which
the embedding renders as none. -/
theorem computeGini_allzero_cex : computeGini [0, 0, 0] ≠ some 0 := by
  decide

/-- Claim C2 as amended: on an all-zero-wealth input compute_gini has a
zero divisor n * sum(x) and raises ZeroDivisionError (none in the
embedding); no sentinel value is produced. -/
theorem computeGini_allzero_raises (l : List ℤ) (h : ∀ a ∈ l, a = 0) :
    computeGini l = none := by
  have hsum : (List.insertionSort (fun a b => a ≤ b) l).sum = 0 := by
    rw [(List.perm_insertionSort (fun a b => a ≤ b) l).sum_eq]
    exact List.sum_eq_zero h
  simp [computeGini, computeGiniN, hsum]

/-- Witness for the amended C2 on a concrete all-zero population. -/
theorem computeGini_allzero_raises_app : computeGini [0, 0] = none :=
  computeGini_allzero_raises [0, 0] (by decide)

/-- Claim C3: on every non-empty population of non-negative wealth values
with positive total, the returned score lies in the closed interval
[0, 1]; equality at 0 is attained at perfect equality. -/
theorem computeGini_unit_interval :
    (∀ l : List ℤ, l ≠ [] → (∀ a ∈ l, 0 ≤ a) → 0 < l.sum →
      ∃ g : ℚ, computeGini l = some g ∧ 0 ≤ g ∧ g ≤ 1) ∧
    (∀ (n : ℕ) (w : ℤ), 1 ≤ n → 0 < w →
      computeGini (List.replicate n w) = some 0) := by
  constructor
  · intro l hne hnn hpos
    have hperm := List.perm_insertionSort (fun a b => a ≤ b) l
    have hsorted : List.Sorted (fun a b => a ≤ b)
        (List.insertionSort (fun a b => a ≤ b) l) :=
      List.sorted_insertionSort _ l
    have hnnx : ∀ a ∈ List.insertionSort (fun a b => a ≤ b) l, 0 ≤ a :=
      fun a ha => hnn a (hperm.mem_iff.mp ha)
    have hub := two_mul_weightedSum_le hsorted
    have hlb := sum_le_weightedSum hnnx
    rw [hperm.length_eq, hperm.sum_eq] at hub
    rw [hperm.sum_eq] at hlb
    have hn1 : 1 ≤ l.length := List.length_pos.mpr hne
    have hN : (0 : ℚ) < (l.length : ℚ) := by exact_mod_cast hn1
    have hS : (0 : ℚ) < ((l.sum : ℤ) : ℚ) := by exact_mod_cast hpos
    have hubq : 2 * ((weightedSum (List.insertionSort (fun a b => a ≤ b) l)
        : ℤ) : ℚ) ≤ ((l.length : ℚ) + 1) * ((l.sum : ℤ) : ℚ) := by
      exact_mod_cast hub
    have hlbq : ((l.sum : ℤ) : ℚ) ≤
        ((weightedSum (List.insertionSort (fun a b => a ≤ b) l) : ℤ) : ℚ) :=
      by exact_mod_cast hlb
    obtain ⟨h0, h1⟩ := score_bounds hN hS hubq hlbq
    exact ⟨_, computeGini_eq_some hne hpos, h0, h1⟩
  · intro n w hn hw
    exact computeGini_replicate hn hw

/-- Witness for C3 on the concrete snapshot with wealths 1 and 2. -/
theorem computeGini_unit_interval_app :
    ∃ g : ℚ, computeGini [1, 2] = some g ∧ 0 ≤ g ∧ g ≤ 1 :=
  computeGini_unit_interval.1 [1, 2] (by decide) (by decide) (by decide)

/-- Claim C4: identical wealth w > 0 for all n individuals yields score 0
for every n at least 1; in particular [1,1,1,1] gives B = 10/16 and
score 0. -/
theorem computeGini_equal_wealth :
    (∀ (n : ℕ) (w : ℤ), 1 ≤ n → 0 < w →
      computeGini (List.replicate n w) = some 0) ∧
    giniB 4 (List.insertionSort (fun a b => a ≤ b) [1, 1, 1, 1]) = 10 / 16 ∧
    computeGini [1, 1, 1, 1] = some 0 := by
  refine ⟨fun n w hn hw => computeGini_replicate hn hw, ?_, ?_⟩
  · norm_num [giniB, giniNumerator, List.insertionSort, List.orderedInsert,
      List.enum, List.enumFrom]
  · norm_num [computeGini, computeGiniN, giniB, giniNumerator,
      List.insertionSort, List.orderedInsert, List.enum, List.enumFrom]

/-- Witness for C4 at two agents of wealth 3 each. -/
theorem computeGini_equal_wealth_app :
    computeGini (List.replicate 2 3) = some 0 :=
  computeGini_equal_wealth.1 2 3 (by decide) (by decide)

/-- Claim C5: with one individual holding all S > 0 units and the other
n-1 holding 0, the score is exactly ((n-1))/n, which equals 1 - 1/n; for
n = 4 and wealths [0,0,0,4] the score is 0.75 = 3/4. -/
theorem computeGini_concentrated :
    (∀ (n : ℕ) (S : ℤ), 1 ≤ n → 0 < S →
      computeGini (List.replicate (n - 1) 0 ++ [S]) =
        some (((n : ℚ) - 1) / (n : ℚ)) ∧
      ((n : ℚ) - 1) / (n : ℚ) = 1 - 1 / (n : ℚ)) ∧
    computeGini [0, 0, 0, 4] = some (3 / 4) := by
  constructor
  · intro n S hn hS
    refine ⟨computeGini_concentrated_eq hn hS, ?_⟩
    have hnq : (n : ℚ) ≠ 0 := Nat.cast_ne_zero.mpr (by omega)
    field_simp
  · norm_num [computeGini, computeGiniN, giniB, giniNumerator,
      List.insertionSort, List.orderedInsert, List.enum, List.enumFrom]

/-- Witness for C5 at four agents, one holding 7 units. -/
theorem computeGini_concentrated_app :
    computeGini (List.replicate (4 - 1) 0 ++ [7]) =
        some (((4 : ℚ) - 1) / (4 : ℚ)) ∧
      ((4 : ℚ) - 1) / (4 : ℚ) = 1 - 1 / (4 : ℚ) :=
  computeGini_concentrated.1 4 7 (by decide) (by decide)

/-- Claim C6: permuted snapshots produce identical scores; the result
only depends on the multiset of wealth values. -/
theorem computeGini_perm_invariant (l₁ l₂ : List ℤ) (h : l₁.Perm l₂) :
    computeGini l₁ = computeGini l₂ := by
  have hs := insertionSort_eq_of_perm h
  have hl := h.length_eq
  simp only [computeGini, computeGiniN]
  rw [hs, hl]

/-- Witness for C6 on a transposed pair. -/
theorem computeGini_perm_invariant_app :
    computeGini [1, 2] = computeGini [2, 1] :=
  computeGini_perm_invariant [1, 2] [2, 1] (List.Perm.swap 2 1 [])

/-- Claim C7: multiplying every wealth value of a non-degenerate snapshot
by a positive constant leaves the score unchanged. -/
theorem computeGini_scale_invariant (l : List ℤ) (c : ℤ) (hne : l ≠ [])
    (hnn : ∀ a ∈ l, 0 ≤ a) (hpos : 0 < l.sum) (hc : 0 < c) :
    computeGini (l.map (fun a => c * a)) = computeGini l := by
  have hpos' : 0 < (l.map (fun a => c * a)).sum := by
    rw [sum_map_mul_int]
    exact mul_pos hc hpos
  have hne' : l.map (fun a => c * a) ≠ [] :=
    fun h0 => hne (List.map_eq_nil_iff.mp h0)
  rw [computeGini_eq_some hne' hpos', computeGini_eq_some hne hpos]
  rw [insertionSort_map_mul hc.le, weightedSum_map_mul, sum_map_mul_int,
    List.length_map]
  refine congrArg some ?_
  have hcq : (c : ℚ) ≠ 0 := by exact_mod_cast hc.ne'
  have hnq : ((l.length : ℕ) : ℚ) ≠ 0 :=
    Nat.cast_ne_zero.mpr (fun h0 => hne (List.length_eq_zero.mp h0))
  have hS0 : l.sum ≠ 0 := hpos.ne'
  generalize weightedSum (List.insertionSort (fun a b => a ≤ b) l) = W
  generalize l.sum = S at hS0 ⊢
  have hSq : ((S : ℤ) : ℚ) ≠ 0 := by exact_mod_cast hS0
  push_cast
  field_simp
  ring

/-- Witness for C7: doubling the snapshot [1, 2]. -/
theorem computeGini_scale_invariant_app :
    computeGini ([1, 2].map (fun a => 2 * a)) = computeGini [1, 2] :=
  computeGini_scale_invariant [1, 2] 2 (by decide) (by decide) (by decide)
    (by decide)

/-!
Helper lemmas about the agent population.
-/

/-- Reading with a default at a present index yields the stored agent. -/
theorem getD_of_getElem? {agents : List MoneyAgent} {i : ℕ}
    {a : MoneyAgent} (h : agents[i]? = some a) :
    agents.getD i default = a := by
  rw [List.getD_eq_getElem?_getD, h]
  rfl

/-- Effect of an in-range update on the total wealth, in additive form. -/
theorem totalWealth_set (agents : List MoneyAgent) (i : ℕ)
    (a : MoneyAgent) :
    i < agents.length →
    totalWealth (agents.set i a) + (agents.getD i default).wealth =
      totalWealth agents + a.wealth := by
  induction agents generalizing i with
  | nil => intro h; simp at h
  | cons b t ih =>
    intro h
    cases i with
    | zero =>
      simp only [List.set_cons_zero, totalWealth, List.map_cons,
        List.sum_cons, List.getD_cons_zero]
      ring
    | succ i' =>
      have h' : i' < t.length := by simpa using h
      have ihh := ih i' h'
      simp only [List.set_cons_succ, totalWealth, List.map_cons,
        List.sum_cons, List.getD_cons_succ] at ihh ⊢
      linarith

/-- An in-range update that keeps the wealth of the stored agent keeps
the total wealth. -/
theorem totalWealth_set_same {agents : List MoneyAgent} {i : ℕ}
    {a s : MoneyAgent} (hget : agents[i]? = some a)
    (hw : s.wealth = a.wealth) :
    totalWealth (agents.set i s) = totalWealth agents := by
  obtain ⟨hlt, _⟩ := List.getElem?_eq_some.mp hget
  have h := totalWealth_set agents i s hlt
  rw [getD_of_getElem? hget, hw] at h
  linarith

/-- Indices produced by cellmates are in range and differ from the
giver. -/
theorem cellmates_lt_ne {agents : List MoneyAgent} {i j : ℕ}
    (hj : j ∈ cellmates agents i) : j < agents.length ∧ j ≠ i := by
  simp only [cellmates, List.mem_filter, List.mem_range,
    Bool.and_eq_true, decide_eq_true_eq] at hj
  exact ⟨hj.1, hj.2.1⟩

/-- The cellmate selected by the random draw is one of the cellmates. -/
theorem chosen_mate_mem {l : List ℕ} (k : ℕ) (h : 0 < l.length) :
    l.getD (k % l.length) 0 ∈ l := by
  have hlt : k % l.length < l.length := Nat.mod_lt _ h
  rw [List.getD_eq_getElem l 0 hlt]
  exact List.getElem_mem hlt

/-- A one-unit transfer between two distinct in-range agents keeps the
total wealth. -/
theorem totalWealth_transfer {agents : List MoneyAgent} {i j : ℕ}
    (hi : i < agents.length) (hj : j < agents.length) (hji : j ≠ i)
    {self s' o' : MoneyAgent} (hget : agents[i]? = some self)
    (ho : o'.wealth = (agents.getD j default).wealth + 1)
    (hs : s'.wealth = self.wealth - 1) :
    totalWealth ((agents.set j o').set i s') = totalWealth agents := by
  have h1 := totalWealth_set agents j o' hj
  have h2 := totalWealth_set (agents.set j o') i s'
    (by rw [List.length_set]; exact hi)
  have hgd : (agents.set j o').getD i default = self := by
    rw [List.getD_eq_getElem?_getD, List.getElem?_set, if_neg hji, hget]
    rfl
  rw [hgd] at h2
  rw [ho] at h1
  rw [hs] at h2
  linarith

/-- MoneyAgent.move keeps the total wealth. -/
theorem totalWealth_move (agents : List MoneyAgent) (i c : ℕ) :
    totalWealth (MoneyAgent.move agents i c) = totalWealth agents := by
  cases hi : agents[i]? with
  | none => simp [MoneyAgent.move, hi]
  | some self =>
    simp only [MoneyAgent.move, hi]
    exact totalWealth_set_same hi rfl

/-- MoneyAgent.give_money keeps the total wealth: the transfer moves one
unit from the giver to the chosen cellmate, and the no-transfer branch
only touches the counter. -/
theorem totalWealth_give_money (agents : List MoneyAgent)
    (i choice : ℕ) :
    totalWealth (MoneyAgent.give_money agents i choice) =
      totalWealth agents := by
  cases hi : agents[i]? with
  | none => simp [MoneyAgent.give_money, hi]
  | some self =>
    obtain ⟨hilt, _⟩ := List.getElem?_eq_some.mp hi
    simp only [MoneyAgent.give_money, hi]
    by_cases hcond : 0 < (cellmates agents i).length ∧ 0 < self.wealth
    · rw [if_pos hcond]
      have hjmem := chosen_mate_mem choice hcond.1
      obtain ⟨hjlt, hjne⟩ := cellmates_lt_ne hjmem
      exact totalWealth_transfer hilt hjlt hjne hi rfl rfl
    · rw [if_neg hcond]
      exact totalWealth_set_same hi rfl

/-- One primitive operation keeps the total wealth. -/
theorem totalWealth_applyOp (agents : List MoneyAgent) (op : AgentOp) :
    totalWealth (applyOp agents op) = totalWealth agents := by
  cases op with
  | moveOp i c => exact totalWealth_move agents i c
  | giveOp i ch => exact totalWealth_give_money agents i ch

/-- A sequence of primitive operations keeps the total wealth. -/
theorem totalWealth_applyOps (agents : List MoneyAgent)
    (ops : List AgentOp) :
    totalWealth (applyOps agents ops) = totalWealth agents := by
  induction ops generalizing agents with
  | nil => rfl
  | cons op rest ih =>
    have hstep : applyOps agents (op :: rest) =
        applyOps (applyOp agents op) rest := rfl
    rw [hstep, ih, totalWealth_applyOp]

/-- MoneyAgent.move keeps every wealth non-negative. -/
theorem wealth_nonneg_move {agents : List MoneyAgent}
    (h : ∀ a ∈ agents, 0 ≤ a.wealth) (i c : ℕ) :
    ∀ a ∈ MoneyAgent.move agents i c, 0 ≤ a.wealth := by
  intro a ha
  cases hi : agents[i]? with
  | none => rw [MoneyAgent.move, hi] at ha; exact h a ha
  | some self =>
    obtain ⟨hilt, higet⟩ := List.getElem?_eq_some.mp hi
    simp only [MoneyAgent.move, hi] at ha
    rcases List.mem_or_eq_of_mem_set ha with h1 | rfl
    · exact h a h1
    · show 0 ≤ self.wealth
      exact h self (higet ▸ List.getElem_mem hilt)

/-- MoneyAgent.give_money keeps every wealth non-negative: a unit leaves
only a giver whose wealth is strictly positive. -/
theorem wealth_nonneg_give {agents : List MoneyAgent}
    (h : ∀ a ∈ agents, 0 ≤ a.wealth) (i choice : ℕ) :
    ∀ a ∈ MoneyAgent.give_money agents i choice, 0 ≤ a.wealth := by
  intro a ha
  cases hi : agents[i]? with
  | none => rw [MoneyAgent.give_money, hi] at ha; exact h a ha
  | some self =>
    obtain ⟨hilt, higet⟩ := List.getElem?_eq_some.mp hi
    simp only [MoneyAgent.give_money, hi] at ha
    by_cases hcond : 0 < (cellmates agents i).length ∧ 0 < self.wealth
    · rw [if_pos hcond] at ha
      have hjmem := chosen_mate_mem choice hcond.1
      obtain ⟨hjlt, hjne⟩ := cellmates_lt_ne hjmem
      rcases List.mem_or_eq_of_mem_set ha with ha1 | rfl
      · rcases List.mem_or_eq_of_mem_set ha1 with ha2 | rfl
        · exact h a ha2
        · show 0 ≤ (agents.getD _ default).wealth + 1
          have hmem : agents.getD
              ((cellmates agents i).getD
                (choice % (cellmates agents i).length) 0) default ∈
              agents := by
            rw [List.getD_eq_getElem agents default hjlt]
            exact List.getElem_mem hjlt
          have := h _ hmem
          linarith
      · show 0 ≤ self.wealth - 1
        have := hcond.2
        omega
    · rw [if_neg hcond] at ha
      rcases List.mem_or_eq_of_mem_set ha with ha1 | rfl
      · exact h a ha1
      · show 0 ≤ self.wealth
        exact h self (higet ▸ List.getElem_mem hilt)

/-- One primitive operation keeps every wealth non-negative. -/
theorem wealth_nonneg_applyOp {agents : List MoneyAgent}
    (h : ∀ a ∈ agents, 0 ≤ a.wealth) (op : AgentOp) :
    ∀ a ∈ applyOp agents op, 0 ≤ a.wealth := by
  cases op with
  | moveOp i c => exact wealth_nonneg_move h i c
  | giveOp i ch => exact wealth_nonneg_give h i ch

/-- A sequence of primitive operations keeps every wealth
non-negative. -/
theorem wealth_nonneg_applyOps {agents : List MoneyAgent}
    (h : ∀ a ∈ agents, 0 ≤ a.wealth) (ops : List AgentOp) :
    ∀ a ∈ applyOps agents ops, 0 ≤ a.wealth := by
  induction ops generalizing agents with
  | nil => exact h
  | cons op rest ih =>
    have hstep : applyOps agents (op :: rest) =
        applyOps (applyOp agents op) rest := rfl
    rw [hstep]
    exact ih (wealth_nonneg_applyOp h op)

/-- Claim C8: total wealth is conserved across the simulation: every
give_money transfer moves exactly one unit between two agents and moves
touch no wealth, so after any sequence of model-step operations the total
equals the total at initialization, namely one unit per created agent. -/
theorem totalWealth_conserved :
    (∀ (agents : List MoneyAgent) (ops : List AgentOp),
      totalWealth (applyOps agents ops) = totalWealth agents) ∧
    (∀ cells : List ℕ,
      totalWealth (createAgents cells) = (cells.length : ℤ)) := by
  refine ⟨totalWealth_applyOps, ?_⟩
  intro cells
  induction cells with
  | nil => rfl
  | cons c t ih =>
    simp only [createAgents, totalWealth, List.map_cons, List.sum_cons,
      List.length_cons] at ih ⊢
    rw [ih]
    push_cast
    ring

/-- Claim C9: compute_gini is pure: it hands the model state back
unchanged, and its score is a function of the wealth snapshot alone. -/
theorem compute_gini_pure :
    (∀ m : MoneyModel, (compute_gini m).2 = m) ∧
    (∀ m : MoneyModel, m.num_agents = m.agents.length →
      (compute_gini m).1 =
        computeGini (m.agents.map MoneyAgent.wealth)) := by
  refine ⟨fun m => rfl, fun m h => ?_⟩
  show computeGiniN m.num_agents (m.agents.map MoneyAgent.wealth) =
    computeGini (m.agents.map MoneyAgent.wealth)
  rw [computeGini, List.length_map, h]

/-- Witness for C9 on a one-agent model. -/
theorem compute_gini_pure_app :
    (compute_gini ⟨1, createAgents [5]⟩).1 =
      computeGini ((createAgents [5]).map MoneyAgent.wealth) :=
  compute_gini_pure.2 ⟨1, createAgents [5]⟩ (by decide)

/-- Claim C10: wealth values never become negative: initialization
creates only wealth 1, and give_money removes a unit only from a giver
with strictly positive wealth, so every population reachable by
model-step operations has non-negative wealth everywhere. -/
theorem wealth_nonneg_invariant :
    (∀ cells : List ℕ, ∀ a ∈ createAgents cells, 0 ≤ a.wealth) ∧
    (∀ agents : List MoneyAgent, (∀ a ∈ agents, 0 ≤ a.wealth) →
      ∀ ops : List AgentOp, ∀ a ∈ applyOps agents ops, 0 ≤ a.wealth) := by
  constructor
  · intro cells a ha
    simp only [createAgents, List.mem_map] at ha
    obtain ⟨c, _, rfl⟩ := ha
    show (0 : ℤ) ≤ 1
    norm_num
  · intro agents h ops
    exact wealth_nonneg_applyOps h ops

/-- Witness for C10: two cellmates, one transfer; the giver ends at
wealth zero, still non-negative. -/
theorem wealth_nonneg_invariant_app :
    0 ≤ (MoneyAgent.mk 5 0 0).wealth :=
  wealth_nonneg_invariant.2 (createAgents [5, 5]) (by decide)
    [AgentOp.giveOp 0 0] (MoneyAgent.mk 5 0 0) (by decide)
